import Mathlib

/-!
Verification development for the `grep-ast-go` scope-indexing and
context-expansion engine (`grepast.go`).

The Go code is shallowly embedded: the `TreeContext` struct becomes a Lean
structure, Go maps `map[int]struct\x7b\x7d` become `Finset Int`, Go slices become
`List`s, and each method becomes a pure state-passing function.  The external
tree-sitter parse tree is modelled by the inductive `Node` carrying a start
row, an end row, and the list of named children (the Go loop
`for i < node.ChildCount() if child := node.NamedChild(i); child != nil`
enumerates exactly the named children).  Language detection and regular
expression compilation are external collaborators; `Grep` is therefore
parameterised by an abstract `compile` function, and a compilation failure is
modelled as an aborting outcome (Go's `regexp.MustCompile` panics).

Go map iteration order is unspecified; wherever the Go code iterates over a
map and the result provably does not depend on the order (pure set unions),
the embedding uses the set operation directly.  The two loops in `AddContext`
that call `addParentScopes` / `addChildContext` per line of interest are
order-sensitive, so they are parameterised by an explicit enumeration order
(`AddContextOrd`); `AddContext` instantiates it with the ascending order.
-/

namespace GrepAst

/-- A tree-sitter syntax node: start row, end row, named children.
Columns are never consulted by `grepast.go`, so they are omitted. -/
inductive Node where
  | mk (startLine : Nat) (endLine : Nat) (children : List Node)

/-- Start row of a node (`node.StartPosition().Row`). -/
def Node.startLine : Node → Nat
  | .mk s _ _ => s

/-- End row of a node (`node.EndPosition().Row`). -/
def Node.endLine : Node → Nat
  | .mk _ e _ => e

/-- Named children of a node. -/
def Node.children : Node → List Node
  | .mk _ _ c => c

/-- Line span of a node, `endLine - startLine`, as in `sortNodesBySize`
and `walkTree` (Go `int` arithmetic, hence `Int`). -/
def nodeSize (n : Node) : Int :=
  (n.endLine : Int) - (n.startLine : Int)

/-- The options record `TreeContextOptions`. -/
structure TreeContextOptions where
  Color : Bool
  Verbose : Bool
  ShowLineNumber : Bool
  ShowParentContext : Bool
  ShowChildContext : Bool
  ShowLastLine : Bool
  MarginPadding : Int
  MarkLinesOfInterest : Bool
  HeaderMax : Int
  ShowTopOfFileParentScope : Bool
  LinesOfInterestPadding : Int

/-- The `TreeContext` struct.  Slices are `List`s, `map[int]struct\x7b\x7d`
becomes `Finset Int`, and `map[int]string` an association list. -/
structure TreeContext where
  filename : String
  color : Bool
  verbose : Bool
  lineNumber : Bool
  lastLine : Bool
  margin : Int
  markLOIs : Bool
  headerMax : Int
  loiPad : Int
  showTopOfFileParentScope : Bool
  parentContext : Bool
  childContext : Bool
  lines : List String
  numLines : Nat
  outputLines : List (Nat × String)
  scopes : List (Finset Int)
  header : List (List Int)
  nodes : List (List Node)
  showLines : Finset Int
  linesOfInterest : Finset Int
  doneParentScopes : Finset Int

/-- The set of integers in the half-open interval `[a, b)`; used to embed
Go `for` loops of the shape `for ln := a; ln < b; ln++` that insert `ln`
into a set. -/
def intRangeSet (a b : Int) : Finset Int :=
  ((List.range (b - a).toNat).map (fun (k : Nat) => a + (k : Int))).toFinset

/-- Ascending enumeration of a `Finset Int` by repeated minimum
extraction; the fuel `s.card` supplied by `sortedKeys` is exact.  This
embeds the source's `mapKeysSorted` (`grepast.go` lines 537-551, a swap
sort of the collected map keys): both produce the ascending list of the
set's elements. -/
def sortedKeysGo : Nat → Finset Int → List Int
  | 0, _ => []
  | fuel + 1, s =>
    match s.min with
    | none => []
    | some m => m :: sortedKeysGo fuel (s.erase m)

/-- `mapKeysSorted`: the ascending list of elements of a `Finset Int`. -/
def sortedKeys (s : Finset Int) : List Int := sortedKeysGo s.card s

/-- Helper of `splitLines`: accumulate the current segment (reversed) while
scanning the character list. -/
def splitLinesAux : List Char → List Char → List String
  | acc, [] => [String.mk acc.reverse]
  | acc, c :: rest =>
    if c = '\n' then String.mk acc.reverse :: splitLinesAux [] rest
    else splitLinesAux (c :: acc) rest

/-- Go's `strings.Split(source, "\n")`: the `"\n"`-delimited segments, one
more than the number of newline characters (`""` yields `[""]`, a trailing
newline yields a final `""`). -/
def splitLines (s : String) : List String :=
  splitLinesAux [] s.data

/-- Whether a line is blank, i.e. `strings.TrimSpace(line) == ""`: every
character is whitespace. -/
def isBlank (s : String) : Bool :=
  s.data.all (fun c => c.isWhitespace)

/-- One `walkTree` visit before recursion: append the node to
`nodes[startLine]`, record the header candidate when `size > 0`, and mark
scope membership for every covered line (`grepast.go` lines 486-523). -/
def walkVisit (tc : TreeContext) (n : Node) : TreeContext :=
  let startLine := n.startLine
  let endLine := n.endLine
  let size := nodeSize n
  let tc1 := { tc with nodes := tc.nodes.set startLine (tc.nodes.getD startLine [] ++ [n]) }
  let tc2 :=
    if 0 < size ∧ startLine < tc1.header.length then
      { tc1 with header := tc1.header.set startLine [size, (startLine : Int), (endLine : Int)] }
    else tc1
  { tc2 with
    scopes :=
      (List.range' startLine (endLine + 1 - startLine)).foldl
        (fun sc i =>
          if i < sc.length then sc.set i (insert (startLine : Int) (sc.getD i ∅)) else sc)
        tc2.scopes }

mutual

/-- `walkTree` (`grepast.go` lines 486-532): depth-first pre-order
traversal.  A node whose start row falls outside the `nodes` slice returns
immediately, before recursing into children. -/
def walkTree (tc : TreeContext) (n : Node) : TreeContext :=
  match n with
  | .mk s e cs =>
    if tc.nodes.length ≤ s then tc
    else walkChildren (walkVisit tc (.mk s e cs)) cs
termination_by structural n

/-- The child-recursion loop of `walkTree`. -/
def walkChildren (tc : TreeContext) (ns : List Node) : TreeContext :=
  match ns with
  | [] => tc
  | n :: rest => walkChildren (walkTree tc n) rest
termination_by structural ns

end

/-- Header finalization for one line, from `postWalkProcessing`
(`grepast.go` lines 146-162).  The `length < 2` default branch is kept even
though `NewTreeContext` initializes every entry to the length-2 list
`[0, 0]`, which makes that branch unreachable on constructed contexts. -/
def finalizeHeader (headerMax : Int) (i : Nat) (h : List Int) : List Int :=
  if h.length < 2 then [(i : Int), (i : Int) + 1]
  else
    let size := h.getD 0 0
    let headStart := h.getD 1 0
    let headEnd0 := headStart + 1
    let headEnd1 := if 2 < h.length then h.getD 2 0 else headEnd0
    let headEnd := if headerMax < size then headStart + headerMax else headEnd1
    [headStart, headEnd]

/-- `postWalkProcessing`: finalize the header interval of every line index
below `numLines` (the verbose trace printing has no effect on state and is
omitted). -/
def postWalkProcessing (tc : TreeContext) : TreeContext :=
  { tc with
    header :=
      (List.range tc.header.length).map fun i =>
        if i < tc.numLines then finalizeHeader tc.headerMax i (tc.header.getD i [])
        else tc.header.getD i [] }

/-- `NewTreeContext` (`grepast.go` lines 54-129), with the external language
detection and parsing abstracted away: the already-parsed root node is an
argument.  `lines = strings.Split(source, "\n")`, the structural arrays get
`len(lines)+1` slots, and the stored `numLines` is `len(lines)+1`. -/
def initialTreeContext (filename : String) (source : String)
    (options : TreeContextOptions) : TreeContext :=
  let lines := splitLines source
  let numLines := lines.length
  { filename := filename
    color := options.Color
    verbose := options.Verbose
    lineNumber := options.ShowLineNumber
    parentContext := options.ShowParentContext
    childContext := options.ShowChildContext
    lastLine := options.ShowLastLine
    margin := options.MarginPadding
    markLOIs := options.MarkLinesOfInterest
    headerMax := options.HeaderMax
    loiPad := options.LinesOfInterestPadding
    showTopOfFileParentScope := options.ShowTopOfFileParentScope
    lines := lines
    numLines := numLines + 1
    outputLines := []
    scopes := List.replicate (numLines + 1) ∅
    header := List.replicate (numLines + 1) [0, 0]
    nodes := List.replicate (numLines + 1) []
    showLines := ∅
    linesOfInterest := ∅
    doneParentScopes := ∅ }

/-- `NewTreeContext` proper: build the initial state, walk the tree, then
run the post-walk header finalization. -/
def NewTreeContext (filename : String) (source : String)
    (options : TreeContextOptions) (root : Node) : TreeContext :=
  postWalkProcessing (walkTree (initialTreeContext filename source options) root)

/-- `getLastLineOfScope` (`grepast.go` lines 343-354): the maximum end row
over nodes starting at line `i`, or `i` itself when out of range or empty. -/
def getLastLineOfScope (tc : TreeContext) (i : Int) : Int :=
  if i < 0 ∨ (tc.nodes.length : Int) ≤ i then i
  else if (tc.nodes.getD i.toNat []).length = 0 then i
  else ((tc.nodes.getD i.toNat []).map (fun n => (n.endLine : Int))).foldl max 0

/-- The loop of `addParentScopes` over the scope-owner lines recorded for
line `i` (`grepast.go` lines 466-482), iterated in ascending key order (Go
iterates a map here; the union of header intervals does not depend on the
order, and the `lastLine` recursion is memoized).  The recursive
`addParentScopes` call made for the last line of each scope is abstracted
as the parameter `rec` so that the fuelled recursion below stays
structural. -/
def scopeLoopF (rec : TreeContext → Int → TreeContext) : TreeContext → List Int → TreeContext
  | tc, [] => tc
  | tc, lineNum :: rest =>
    let headerSlice := tc.header.getD lineNum.toNat []
    let tc2 :=
      if 2 ≤ headerSlice.length then
        let headStart := headerSlice.getD 0 0
        let headEnd := headerSlice.getD 1 0
        let tcShow :=
          if 0 < headStart ∨ tc.showTopOfFileParentScope then
            { tc with showLines := tc.showLines ∪ intRangeSet headStart (min headEnd (tc.numLines : Int)) }
          else tc
        if tcShow.lastLine then rec tcShow (getLastLineOfScope tcShow lineNum) else tcShow
      else tc
    scopeLoopF rec tc2 rest

/-- Fuelled embedding of the recursive `addParentScopes` (`grepast.go`
lines 456-483).  The memo set `doneParentScopes` bounds the recursion depth
by the number of in-range indices, so fuel `scopes.length + 1` (used by
`addParentScopes` below) always suffices: a frame reached with fuel `0`
would necessarily hit the out-of-range or already-done guard anyway. -/
def addParentScopesF : Nat → TreeContext → Int → TreeContext
  | 0, tc, _ => tc
  | fuel + 1, tc, i =>
    if i < 0 ∨ (tc.scopes.length : Int) ≤ i then tc
    else if i ∈ tc.doneParentScopes then tc
    else
      let tc1 := { tc with doneParentScopes := insert i tc.doneParentScopes }
      scopeLoopF (addParentScopesF fuel) tc1 (sortedKeys (tc1.scopes.getD i.toNat ∅))

/-- `addParentScopes` with the always-sufficient fuel. -/
def addParentScopes (tc : TreeContext) (i : Int) : TreeContext :=
  addParentScopesF (tc.scopes.length + 1) tc i

mutual

/-- `findAllChildren` (`grepast.go` lines 332-340): the node itself followed
by all recursively gathered named descendants, in pre-order. -/
def findAllChildren (n : Node) : List Node :=
  match n with
  | .mk s e cs => .mk s e cs :: findAllChildrenList cs
termination_by structural n

/-- List form of `findAllChildren`'s recursion over named children. -/
def findAllChildrenList (ns : List Node) : List Node :=
  match ns with
  | [] => []
  | n :: rest => findAllChildren n ++ findAllChildrenList rest
termination_by structural ns

end

/-- The inner `j`-loop of `sortNodesBySize` acting on the element currently
at position `i` (`x`) and the tail beyond it: whenever a later element is
strictly larger it is swapped to the front position.  Returns the final
front element and the tail it leaves behind, reproducing the Go double-loop
swap semantics exactly. -/
def sortScan (x : Node) : List Node → Node × List Node
  | [] => (x, [])
  | y :: ys =>
    if nodeSize x < nodeSize y then
      let p := sortScan y ys
      (p.1, x :: p.2)
    else
      let p := sortScan x ys
      (p.1, y :: p.2)

/-- Outer loop of `sortNodesBySize`, fuelled by the list length (`sortScan`
preserves the tail length, so the fuel is exact). -/
def sortNodesGo : Nat → List Node → List Node
  | 0, l => l
  | _, [] => []
  | Nat.succ fuel, x :: xs =>
    let p := sortScan x xs
    p.1 :: sortNodesGo fuel p.2

/-- `sortNodesBySize` (`grepast.go` lines 554-564): in-place double loop
that swaps a later node to the front whenever its line span is strictly
larger, yielding a descending order by span. -/
def sortNodesBySize (l : List Node) : List Node :=
  sortNodesGo l.length l

/-- The clamped preview budget of `addChildContext` (`grepast.go` lines
307-314): `int(float64(size)*0.10 + 0.5)` clamped to `[5, 25]`.  For the
sizes where the clamp leaves the rounded value exposed (`size ≤ 255`), the
Go float expression equals round-half-up, i.e. `(size + 5) / 10`. -/
def computedMaxFor (size : Int) : Int :=
  let c := (size + 5) / 10
  if c < 5 then 5 else if 25 < c then 25 else c

/-- The bounded child loop of `addChildContext` (`grepast.go` lines
318-328): before each child, stop if more than `cmax` lines have been added
since the call began (`base` is the `currentlyShowing` snapshot); otherwise
run a full `addParentScopes` on the child's start row. -/
def childLoop (base : Nat) (cmax : Int) (tc : TreeContext) : List Node → TreeContext
  | [] => tc
  | c :: cs =>
    if (base : Int) + cmax < (tc.showLines.card : Int) then tc
    else childLoop base cmax (addParentScopes tc (c.startLine : Int)) cs

/-- `addChildContext` (`grepast.go` lines 273-329). -/
def addChildContext (tc : TreeContext) (i : Int) : TreeContext :=
  if i < 0 ∨ (tc.nodes.length : Int) ≤ i then tc
  else if (tc.nodes.getD i.toNat []).length = 0 then tc
  else
    let lastLine := getLastLineOfScope tc i
    let size := lastLine - i
    if size < 0 then tc
    else if size < 5 then
      { tc with showLines := tc.showLines ∪ intRangeSet i (min (lastLine + 1) (tc.numLines : Int)) }
    else
      let children := sortNodesBySize ((tc.nodes.getD i.toNat []).foldr (fun n acc => findAllChildren n ++ acc) [])
      childLoop tc.showLines.card (computedMaxFor size) tc children

/-- An abstract compiled regular expression: the engine itself is an
external collaborator.  `found` decides whether the pattern matches
anywhere in a line (`re.FindStringIndex(line) != nil`); `replaceAll f s`
stands for `re.ReplaceAllStringFunc(s, f)`. -/
structure Regex where
  found : String → Bool
  replaceAll : (String → String) → String → String

/-- Outcome of `Grep`: Go's `regexp.MustCompile` panics on an invalid
pattern, which aborts the call chain; `panicked` carries the (unmutated)
state at the moment of the abort. -/
inductive GrepOutcome where
  | panicked (state : TreeContext)
  | completed (found : Finset Nat) (state : TreeContext)

/-- Go map assignment `m[k] = v` on the association-list model. -/
def setAssoc (l : List (Nat × String)) (k : Nat) (v : String) : List (Nat × String) :=
  if (l.lookup k).isSome then l.map (fun p => if p.1 = k then (k, v) else p)
  else l ++ [(k, v)]

/-- The per-line loop of `Grep` over `tc.lines` with indices. -/
def grepLoop (re : Regex) (color : Bool) : List (Nat × String) → Finset Nat × List (Nat × String) → Finset Nat × List (Nat × String)
  | [], acc => acc
  | (i, line) :: rest, (found, out) =>
    if re.found line then
      let out' := if color then
          setAssoc out i (re.replaceAll (fun m => "\x1b[1;31m" ++ m ++ "\x1b[0m") line)
        else out
      grepLoop re color rest (insert i found, out')
    else grepLoop re color rest (found, out)

/-- `Grep` (`grepast.go` lines 175-197), parameterised by the external
`compile` step.  `ignoreCase` prepends `(?i)`; a pattern that does not
compile makes `regexp.MustCompile` panic before any state is touched. -/
def Grep (compile : String → Option Regex) (tc : TreeContext) (pat : String) (ignoreCase : Bool) : GrepOutcome :=
  let pat := if ignoreCase then "(?i)" ++ pat else pat
  match compile pat with
  | none => .panicked tc
  | some re =>
    let r := grepLoop re tc.color tc.lines.enum (∅, tc.outputLines)
    .completed r.1 { tc with outputLines := r.2 }

/-- `AddLinesOfInterest` (`grepast.go` lines 200-204). -/
def AddLinesOfInterest (tc : TreeContext) (lineNums : Finset Int) : TreeContext :=
  { tc with linesOfInterest := tc.linesOfInterest ∪ lineNums }

/-- First loop of `closeSmallGaps`: walk the ascending enumeration of the
original `showLines` and fill `curr+1` whenever the next shown line is
exactly two ahead. -/
def gapFill (s : Finset Int) : List Int → Finset Int
  | [] => s
  | [_] => s
  | a :: b :: rest => gapFill (if b - a = 2 then insert (a + 1) s else s) (b :: rest)

/-- Second loop of `closeSmallGaps`: for each source line index in order,
if it is in the (threaded) set, its own text is not blank, it is not within
two slots of `numLines`, and the following line exists and is blank, add
the following line. -/
def blankStep (tc : TreeContext) (acc : Finset Int) (i : Nat) : Finset Int :=
  if (i : Int) ∈ acc then
    if ¬isBlank (tc.lines.getD i "") ∧ (i : Int) < (tc.numLines : Int) - 2 then
      if i + 1 < tc.lines.length ∧ isBlank (tc.lines.getD (i + 1) "") then
        insert ((i : Int) + 1) acc
      else acc
    else acc
  else acc

/-- The fold of `blankStep` over all source line indices in order. -/
def blankPass (tc : TreeContext) (s : Finset Int) : Finset Int :=
  (List.range tc.lines.length).foldl (blankStep tc) s

/-- `closeSmallGaps` (`grepast.go` lines 357-387). -/
def closeSmallGaps (tc : TreeContext) : TreeContext :=
  let closed1 := gapFill tc.showLines (sortedKeys tc.showLines)
  { tc with showLines := blankPass tc closed1 }

/-- The margin pass of `AddContext`: lines `0 ≤ i < margin` with
`i < numLines`. -/
def marginSet (tc : TreeContext) : Finset Int :=
  intRangeSet 0 (min tc.margin (tc.numLines : Int))

/-- The padding contributed around one shown line: all lines within
`loiPad` of it that lie inside `[0, numLines)`. -/
def padRange (tc : TreeContext) (line : Int) : Finset Int :=
  intRangeSet (max (line - tc.loiPad) 0) (min (line + tc.loiPad + 1) (tc.numLines : Int))

/-- The padding pass of `AddContext` (`grepast.go` lines 218-233): Go
collects `toAdd` by iterating the `showLines` map and then inserts all of
it, a pure union, so the map iteration order is irrelevant and the pass is
embedded as the union directly. -/
def padPass (tc : TreeContext) : TreeContext :=
  if 0 < tc.loiPad then
    { tc with showLines := tc.showLines ∪ tc.showLines.biUnion (padRange tc) }
  else tc

/-- The optional bottom-line pass: add `numLines - 2` and expand its
ancestors. -/
def lastLinePass (tc : TreeContext) : TreeContext :=
  if tc.lastLine then
    addParentScopes
      { tc with showLines := insert ((tc.numLines : Int) - 2) tc.showLines }
      ((tc.numLines : Int) - 2)
  else tc

/-- The ancestor pass: `addParentScopes` on every line of interest, in the
order `ord`. -/
def parentPass (tc : TreeContext) (ord : List Int) : TreeContext :=
  if tc.parentContext then ord.foldl addParentScopes tc else tc

/-- The descendant pass: `addChildContext` on every line of interest, in
the order `ord`. -/
def childPass (tc : TreeContext) (ord : List Int) : TreeContext :=
  if tc.childContext then ord.foldl addChildContext tc else tc

/-- The top-margin pass. -/
def marginPass (tc : TreeContext) : TreeContext :=
  if 0 < tc.margin then { tc with showLines := tc.showLines ∪ marginSet tc }
  else tc

/-- The pass pipeline of `AddContext` (`grepast.go` lines 217-266) after
the seed step: padding, optional bottom line, ancestors, descendants, top
margin, gap closing.  `ord` is the enumeration order of the
line-of-interest set used by the two per-line loops (Go iterates a map
there, with unspecified order). -/
def addContextPasses (tc : TreeContext) (ord : List Int) : TreeContext :=
  closeSmallGaps (marginPass (childPass (parentPass (lastLinePass (padPass tc)) ord) ord))

/-- `AddContext` body: return immediately when there are no lines of
interest, otherwise seed `showLines` with them and run the passes. -/
def AddContextOrd (tc : TreeContext) (ord : List Int) : TreeContext :=
  if tc.linesOfInterest = ∅ then tc
  else addContextPasses { tc with showLines := tc.showLines ∪ tc.linesOfInterest } ord

/-- `AddContext` with the canonical ascending enumeration of the
line-of-interest set. -/
def AddContext (tc : TreeContext) : TreeContext :=
  AddContextOrd tc (sortedKeys tc.linesOfInterest)

/-- One emitted unit of `Format`'s line loop: an ellipsis marker or a shown
source line. -/
inductive FmtEvent where
  | ellipsis
  | line (i : Nat)
deriving DecidableEq, Repr

/-- The `Format` loop (`grepast.go` lines 409-431) as an event stream; the
boolean is the `printEllipsis` state. -/
def eventsLoop (s : Finset Int) : List Nat → Bool → List FmtEvent
  | [], _ => []
  | i :: rest, pe =>
    if (i : Int) ∈ s then .line i :: eventsLoop s rest true
    else if pe then .ellipsis :: eventsLoop s rest false
    else eventsLoop s rest pe

/-- Event stream of `Format`: `printEllipsis` starts `true` exactly when
line 0 is not shown. -/
def formatEvents (tc : TreeContext) : List FmtEvent :=
  eventsLoop tc.showLines (List.range tc.lines.length)
    (if (0 : Int) ∈ tc.showLines then false else true)

/-- `lineOfInterestSpacer` (`grepast.go` lines 437-445). -/
def lineOfInterestSpacer (tc : TreeContext) (i : Nat) : String :=
  if (i : Int) ∈ tc.linesOfInterest ∧ tc.markLOIs then
    if tc.color then "\x1b[31m█\x1b[0m" else "█"
  else "│"

/-- `highlightedOrOriginalLine` (`grepast.go` lines 448-453). -/
def highlightedOrOriginalLine (tc : TreeContext) (i : Nat) (original : String) : String :=
  match tc.outputLines.lookup i with
  | some hl => hl
  | none => original

/-- Go's `%3d`: decimal, right-aligned in a field of width 3. -/
def padNum3 (n : Nat) : String :=
  let s := toString n
  String.mk (List.replicate (3 - s.length) ' ') ++ s

/-- Text emitted for one `Format` event. -/
def renderEvent (tc : TreeContext) : FmtEvent → String
  | .ellipsis => "⋮...\n"
  | .line i =>
    let line := tc.lines.getD i ""
    let spacer := lineOfInterestSpacer tc i
    let oline := highlightedOrOriginalLine tc i line
    if tc.lineNumber then padNum3 (i + 1) ++ spacer ++ oline ++ "\n"
    else spacer ++ oline ++ "\n"

/-- `Format` (`grepast.go` lines 392-434): empty when nothing is shown,
otherwise an optional color reset followed by the rendered event stream. -/
def Format (tc : TreeContext) : String :=
  if tc.showLines = ∅ then ""
  else
    (if tc.color then "\x1b[0m\n" else "") ++
      String.join ((formatEvents tc).map (renderEvent tc))

/-- Whether a `Grep` call ran to completion (`true`) or aborted in the
panic of `regexp.MustCompile` (`false`). -/
def GrepOutcome.isCompleted : GrepOutcome → Bool
  | .panicked _ => false
  | .completed _ _ => true

/-- A caller-visible operation on a context, for reasoning about call
sequences: marking lines of interest or expanding the context with a given
enumeration order for the per-line-of-interest loops. -/
inductive Op where
  | addLOI (s : Finset Int)
  | addContext (ord : List Int)

/-- Run one operation. -/
def runOp (tc : TreeContext) : Op → TreeContext
  | .addLOI s => AddLinesOfInterest tc s
  | .addContext ord => AddContextOrd tc ord

/-- Run a sequence of operations left to right. -/
def runOps (tc : TreeContext) (ops : List Op) : TreeContext :=
  ops.foldl runOp tc

/-- The fields of a `TreeContext` that the expansion passes never modify:
everything except `showLines` and `doneParentScopes`. -/
structure StaticView where
  filename : String
  color : Bool
  verbose : Bool
  lineNumber : Bool
  lastLine : Bool
  margin : Int
  markLOIs : Bool
  headerMax : Int
  loiPad : Int
  showTopOfFileParentScope : Bool
  parentContext : Bool
  childContext : Bool
  lines : List String
  numLines : Nat
  outputLines : List (Nat × String)
  scopes : List (Finset Int)
  header : List (List Int)
  nodes : List (List Node)
  linesOfInterest : Finset Int

/-- Projection of a context onto its expansion-static fields. -/
def TreeContext.staticView (tc : TreeContext) : StaticView :=
  { filename := tc.filename, color := tc.color, verbose := tc.verbose,
    lineNumber := tc.lineNumber, lastLine := tc.lastLine, margin := tc.margin,
    markLOIs := tc.markLOIs, headerMax := tc.headerMax, loiPad := tc.loiPad,
    showTopOfFileParentScope := tc.showTopOfFileParentScope,
    parentContext := tc.parentContext, childContext := tc.childContext,
    lines := tc.lines, numLines := tc.numLines, outputLines := tc.outputLines,
    scopes := tc.scopes, header := tc.header, nodes := tc.nodes,
    linesOfInterest := tc.linesOfInterest }

/-- The expansion-static fields agree. -/
def sameStatic (tc tc' : TreeContext) : Prop :=
  tc'.staticView = tc.staticView

/-- `tc'` is an expansion of `tc`: the static fields agree, and both the
lines-to-show set and the parent-scope memo set have only grown. -/
def Expands (tc tc' : TreeContext) : Prop :=
  sameStatic tc tc' ∧ tc.showLines ⊆ tc'.showLines ∧
    tc.doneParentScopes ⊆ tc'.doneParentScopes

/-- One header write of `walkTree` (`grepast.go` lines 513-518): when the
node's span is positive and its start row is inside the slice, the
candidate `[size, startLine, endLine]` unconditionally replaces whatever
was stored for that start row. -/
def writeHeader (h : List (List Int)) (n : Node) : List (List Int) :=
  if 0 < nodeSize n ∧ n.startLine < h.length then
    h.set n.startLine [nodeSize n, (n.startLine : Int), (n.endLine : Int)]
  else h

mutual

/-- The nodes `walkTree` visits, in pre-order: a node whose start row is
at or beyond `len` (the length of the `nodes` slice) is pruned together
with its whole subtree, exactly as `walkTree`'s early return does. -/
def visitedNodes (len : Nat) (n : Node) : List Node :=
  match n with
  | .mk s e cs => if len ≤ s then [] else .mk s e cs :: visitedNodesList len cs
termination_by structural n

/-- List form of `visitedNodes`. -/
def visitedNodesList (len : Nat) (ns : List Node) : List Node :=
  match ns with
  | [] => []
  | n :: rest => visitedNodes len n ++ visitedNodesList len rest
termination_by structural ns

end

/-- Last-write accumulator: remember the most recent node starting at row
`i` with positive span. -/
def lastPosStep (i : Nat) (acc : Option Node) (n : Node) : Option Node :=
  if n.startLine = i ∧ 0 < nodeSize n then some n else acc

/-- The last node in the list that starts at row `i` and has positive
span, if any. -/
def lastPositiveAt (i : Nat) (ns : List Node) : Option Node :=
  ns.foldl (lastPosStep i) none

/-- Instrumented copy of `childLoop` that also returns, for each
`addParentScopes` invocation it makes, the size of `showLines` at the
moment of the invocation. -/
def childLoopTrace (base : Nat) (cmax : Int) (tc : TreeContext) : List Node → TreeContext × List Nat
  | [] => (tc, [])
  | c :: cs =>
    if (base : Int) + cmax < (tc.showLines.card : Int) then (tc, [])
    else
      let r := childLoopTrace base cmax (addParentScopes tc (c.startLine : Int)) cs
      (r.1, tc.showLines.card :: r.2)

/-- The owned span size of line `i`: `getLastLineOfScope(i) - i`, the
`size` computed by `addChildContext`. -/
def scopeSpanSize (tc : TreeContext) (i : Int) : Int :=
  getLastLineOfScope tc i - i

/-- Instrumented copy of `addChildContext` built on `childLoopTrace`: the
first component is the resulting context, the second the list of
`showLines` sizes observed at each `addParentScopes` invocation of the
budgeted loop (empty on the early-return and small-scope paths). -/
def addChildContextTrace (tc : TreeContext) (i : Int) : TreeContext × List Nat :=
  if i < 0 ∨ (tc.nodes.length : Int) ≤ i then (tc, [])
  else if (tc.nodes.getD i.toNat []).length = 0 then (tc, [])
  else
    let lastLine := getLastLineOfScope tc i
    let size := lastLine - i
    if size < 0 then (tc, [])
    else if size < 5 then
      ({ tc with showLines := tc.showLines ∪ intRangeSet i (min (lastLine + 1) (tc.numLines : Int)) }, [])
    else
      let children := sortNodesBySize ((tc.nodes.getD i.toNat []).foldr (fun n acc => findAllChildren n ++ acc) [])
      childLoopTrace tc.showLines.card (computedMaxFor size) tc children

/-- The indices in `[0, n)` at which a maximal run of hidden lines starts:
hidden, and either at index `0` or preceded by a shown line. -/
def hiddenRunStarts (s : Finset Int) (n : Nat) : List Nat :=
  (List.range n).filter fun (i : Nat) =>
    decide ((i : Int) ∉ s) && (i == 0 || decide (((i : Int) - 1) ∈ s))

/-- The set of valid rendering indices of a context: the indices of the
actual source lines, as integers. -/
def lineIndexSet (tc : TreeContext) : Finset Int :=
  ((List.range tc.lines.length).map (fun (i : Nat) => (i : Int))).toFinset

theorem expands_refl (tc : TreeContext) : Expands tc tc :=
  ⟨rfl, Finset.Subset.refl _, Finset.Subset.refl _⟩

theorem expands_trans {a b c : TreeContext} (h1 : Expands a b) (h2 : Expands b c) :
    Expands a c :=
  ⟨h2.1.trans h1.1, h1.2.1.trans h2.2.1, h1.2.2.trans h2.2.2⟩

theorem expands_show_union (tc : TreeContext) (s : Finset Int) :
    Expands tc { tc with showLines := tc.showLines ∪ s } :=
  ⟨rfl, Finset.subset_union_left, Finset.Subset.refl _⟩

theorem expands_show_insert (tc : TreeContext) (x : Int) :
    Expands tc { tc with showLines := insert x tc.showLines } :=
  ⟨rfl, Finset.subset_insert _ _, Finset.Subset.refl _⟩

theorem expands_done_insert (tc : TreeContext) (x : Int) :
    Expands tc { tc with doneParentScopes := insert x tc.doneParentScopes } :=
  ⟨rfl, Finset.Subset.refl _, Finset.subset_insert _ _⟩

theorem expands_scopeLoopF (rec : TreeContext → Int → TreeContext)
    (hrec : ∀ tc i, Expands tc (rec tc i)) :
    ∀ (l : List Int) (tc : TreeContext), Expands tc (scopeLoopF rec tc l) := by
  intro l
  induction l with
  | nil => intro tc; rw [scopeLoopF]; exact expands_refl tc
  | cons lineNum rest ih =>
    intro tc
    rw [scopeLoopF]
    refine expands_trans ?_ (ih _)
    have hlast : ∀ (t : TreeContext) (x : Int),
        Expands t (if t.lastLine = true then rec t x else t) := by
      intro t x
      split
      · exact hrec t x
      · exact expands_refl t
    dsimp only
    split
    · exact expands_trans
        (by split <;> [exact expands_show_union _ _; exact expands_refl _]) (hlast _ _)
    · exact expands_refl tc

theorem expands_addParentScopesF :
    ∀ (fuel : Nat) (tc : TreeContext) (i : Int), Expands tc (addParentScopesF fuel tc i) := by
  intro fuel
  induction fuel with
  | zero => intro tc i; rw [addParentScopesF]; exact expands_refl tc
  | succ fuel ih =>
    intro tc i
    rw [addParentScopesF]
    split
    · exact expands_refl tc
    · split
      · exact expands_refl tc
      · exact expands_trans (expands_done_insert tc i) (expands_scopeLoopF _ ih _ _)

theorem expands_addParentScopes (tc : TreeContext) (i : Int) :
    Expands tc (addParentScopes tc i) :=
  expands_addParentScopesF _ tc i

theorem expands_childLoop (base : Nat) (cmax : Int) :
    ∀ (cs : List Node) (tc : TreeContext), Expands tc (childLoop base cmax tc cs) := by
  intro cs
  induction cs with
  | nil => intro tc; rw [childLoop]; exact expands_refl tc
  | cons c rest ih =>
    intro tc
    rw [childLoop]
    split
    · exact expands_refl tc
    · exact expands_trans (expands_addParentScopes _ _) (ih _)

theorem expands_addChildContext (tc : TreeContext) (i : Int) :
    Expands tc (addChildContext tc i) := by
  rw [addChildContext]
  split
  · exact expands_refl tc
  · split
    · exact expands_refl tc
    · dsimp only
      split
      · exact expands_refl tc
      · split
        · exact expands_show_union _ _
        · exact expands_childLoop _ _ _ _

theorem expands_foldl (f : TreeContext → Int → TreeContext)
    (hf : ∀ tc i, Expands tc (f tc i)) :
    ∀ (l : List Int) (tc : TreeContext), Expands tc (l.foldl f tc) := by
  intro l
  induction l with
  | nil => intro tc; exact expands_refl tc
  | cons x rest ih => intro tc; exact expands_trans (hf tc x) (ih _)

theorem subset_gapFill : ∀ (l : List Int) (s : Finset Int), s ⊆ gapFill s l := by
  intro l
  induction l with
  | nil => intro s; rw [gapFill]
  | cons a l' ih =>
    cases l' with
    | nil => intro s; rw [gapFill]
    | cons b r =>
      intro s
      rw [gapFill]
      refine Finset.Subset.trans ?_ (ih _)
      split
      · exact Finset.subset_insert _ _
      · exact Finset.Subset.refl _

theorem subset_foldl_grow {α : Type} (f : Finset Int → α → Finset Int)
    (hf : ∀ acc x, acc ⊆ f acc x) :
    ∀ (l : List α) (s : Finset Int), s ⊆ l.foldl f s := by
  intro l
  induction l with
  | nil => intro s; exact Finset.Subset.refl _
  | cons x rest ih => intro s; exact (hf s x).trans (ih _)

theorem subset_blankStep (tc : TreeContext) (acc : Finset Int) (i : Nat) :
    acc ⊆ blankStep tc acc i := by
  rw [blankStep]
  split
  · split
    · split
      · exact Finset.subset_insert _ _
      · exact Finset.Subset.refl _
    · exact Finset.Subset.refl _
  · exact Finset.Subset.refl _

theorem subset_blankPass (tc : TreeContext) (s : Finset Int) : s ⊆ blankPass tc s :=
  subset_foldl_grow _ (subset_blankStep tc) _ s

theorem expands_closeSmallGaps (tc : TreeContext) : Expands tc (closeSmallGaps tc) :=
  ⟨rfl, (subset_gapFill _ _).trans (subset_blankPass _ _), Finset.Subset.refl _⟩

theorem expands_padPass (tc : TreeContext) : Expands tc (padPass tc) := by
  rw [padPass]
  split
  · exact expands_show_union _ _
  · exact expands_refl _

theorem expands_lastLinePass (tc : TreeContext) : Expands tc (lastLinePass tc) := by
  rw [lastLinePass]
  split
  · exact expands_trans (expands_show_insert _ _) (expands_addParentScopes _ _)
  · exact expands_refl _

theorem expands_parentPass (tc : TreeContext) (ord : List Int) :
    Expands tc (parentPass tc ord) := by
  rw [parentPass]
  split
  · exact expands_foldl _ expands_addParentScopes _ _
  · exact expands_refl _

theorem expands_childPass (tc : TreeContext) (ord : List Int) :
    Expands tc (childPass tc ord) := by
  rw [childPass]
  split
  · exact expands_foldl _ expands_addChildContext _ _
  · exact expands_refl _

theorem expands_marginPass (tc : TreeContext) : Expands tc (marginPass tc) := by
  rw [marginPass]
  split
  · exact expands_show_union _ _
  · exact expands_refl _

theorem expands_addContextPasses (tc : TreeContext) (ord : List Int) :
    Expands tc (addContextPasses tc ord) := by
  rw [addContextPasses]
  exact expands_trans (expands_padPass tc)
    (expands_trans (expands_lastLinePass _)
      (expands_trans (expands_parentPass _ ord)
        (expands_trans (expands_childPass _ ord)
          (expands_trans (expands_marginPass _) (expands_closeSmallGaps _)))))

theorem expands_AddContextOrd (tc : TreeContext) (ord : List Int) :
    Expands tc (AddContextOrd tc ord) := by
  rw [AddContextOrd]
  split
  · exact expands_refl tc
  · exact expands_trans (expands_show_union _ _) (expands_addContextPasses _ _)

theorem loi_subset_show_AddContextOrd (tc : TreeContext) (ord : List Int) :
    tc.linesOfInterest ⊆ (AddContextOrd tc ord).showLines := by
  rw [AddContextOrd]
  split
  · rename_i h; rw [h]; exact Finset.empty_subset _
  · exact Finset.Subset.trans Finset.subset_union_right
      ((expands_addContextPasses { tc with showLines := tc.showLines ∪ tc.linesOfInterest } ord).2.1)

theorem AddContextOrd_loi (tc : TreeContext) (ord : List Int) :
    (AddContextOrd tc ord).linesOfInterest = tc.linesOfInterest :=
  congrArg StaticView.linesOfInterest (expands_AddContextOrd tc ord).1

theorem loi_subset_show_after (tc : TreeContext) (ord : List Int) :
    (AddContextOrd tc ord).linesOfInterest ⊆ (AddContextOrd tc ord).showLines := by
  rw [AddContextOrd_loi]
  exact loi_subset_show_AddContextOrd tc ord

theorem runOps_allAddContext :
    ∀ (ops : List Op) (tc : TreeContext),
      (∀ op ∈ ops, ∃ o, op = Op.addContext o) →
      tc.linesOfInterest ⊆ tc.showLines →
      (runOps tc ops).linesOfInterest ⊆ (runOps tc ops).showLines := by
  intro ops
  induction ops with
  | nil => intro tc _ h; exact h
  | cons op rest ih =>
    intro tc hall _
    obtain ⟨o, rfl⟩ := hall op (List.mem_cons_self op rest)
    have h1 : (runOp tc (Op.addContext o)).linesOfInterest ⊆ (runOp tc (Op.addContext o)).showLines :=
      loi_subset_show_after tc o
    exact ih _ (fun op hm => hall op (List.mem_cons_of_mem _ hm)) h1

/-- Shared base options: all toggles off, `HeaderMax = 10`. -/
def oBase : TreeContextOptions :=
  { Color := false, Verbose := false, ShowLineNumber := false,
    ShowParentContext := false, ShowChildContext := false, ShowLastLine := false,
    MarginPadding := 0, MarkLinesOfInterest := false, HeaderMax := 10,
    ShowTopOfFileParentScope := false, LinesOfInterestPadding := 0 }

/-- An 11-line source file. -/
def srcEleven : String := "x\nx\nx\nx\nx\nx\nx\nx\nx\nx\nx"

/-- Concrete walked context for the header-candidate claim: two nodes
start at line 0, the outer spanning rows 0-10, the inner 0-5. -/
def c1tc : TreeContext :=
  walkTree (initialTreeContext "f.go" srcEleven oBase) (.mk 0 10 [.mk 0 5 []])

/-- Concrete context for the preview-budget claim: scope of span 10 at
line 0 whose inner node spans rows 0-9, wide header allowance. -/
def c2tc : TreeContext :=
  NewTreeContext "f.go" srcEleven
    { oBase with ShowTopOfFileParentScope := true, HeaderMax := 100 }
    (.mk 0 10 [.mk 0 9 []])

/-- Concrete context for the idempotence claim: padding radius 1, one line
of interest. -/
def c3tc : TreeContext :=
  AddLinesOfInterest
    (NewTreeContext "f.go" "x\nx\nx\nx\nx\nx\nx\nx\nx\nx"
      { oBase with LinesOfInterestPadding := 1 } (.mk 0 0 []))
    {2}

/-- Minimal concrete context for the match-failure claim. -/
def c5tc : TreeContext :=
  NewTreeContext "f.go" "a\nb" oBase (.mk 0 0 [])

/-- Concrete context for the header-default claim: a three-line file whose
only node spans rows 0-2, so line 1 owns no node. -/
def c6tc : TreeContext :=
  NewTreeContext "f.go" "a\nb\nc" oBase (.mk 0 2 [])

/-- Syntax tree for the determinism claim: nested scopes at lines 2
(span 38) and 10 (span 18) with descendants both shared and unshared. -/
def c7tree : Node :=
  .mk 0 44 [
    .mk 2 40 [
      .mk 3 9 [.mk 4 6 [], .mk 7 8 []],
      .mk 10 28 [
        .mk 11 16 [.mk 12 13 [], .mk 14 15 []],
        .mk 17 21 [], .mk 22 24 [], .mk 25 26 [], .mk 27 27 []],
      .mk 29 39 [.mk 30 34 [], .mk 35 38 []]]]

/-- Concrete context for the determinism claim: child context enabled,
one-line headers, lines of interest 2 and 10. -/
def c7tc : TreeContext :=
  AddLinesOfInterest
    (NewTreeContext "f.go" (String.intercalate "\n" (List.replicate 45 "x"))
      { oBase with ShowChildContext := true, ShowTopOfFileParentScope := true, HeaderMax := 1 }
      c7tree)
    {2, 10}

/-- Concrete context for the blank-line claim: the shown line 1 is itself
blank and is followed by the blank line 2. -/
def c8tc : TreeContext :=
  AddContext
    (AddLinesOfInterest (NewTreeContext "f.go" "a\n\n\nb\nc\nd" oBase (.mk 0 0 [])) {1})

/-- Concrete context for the ellipsis claim: a 7-line file showing lines
0, 1, 5 and 6. -/
def c9tc : TreeContext :=
  { NewTreeContext "f.go" "l0\nl1\nl2\nl3\nl4\nl5\nl6" oBase (.mk 0 0 []) with
      showLines := ({0, 1, 5, 6} : Finset Int) }

/-- Concrete context for the bounds-safety witness: lines-to-show holds an
out-of-range index `-5` next to the valid index `1`. -/
def c10tc : TreeContext :=
  { NewTreeContext "f.go" "a\nb\nc" oBase (.mk 0 2 []) with
      showLines := ({-5, 1} : Finset Int) }

/-- Concrete context for the monotonicity witness. -/
def c4tc : TreeContext :=
  NewTreeContext "f.go" "a\nb" oBase (.mk 0 0 [])

/-- C4: after any sequence of `AddLinesOfInterest` / `AddContext` calls in
which an `AddContext` follows the last `AddLinesOfInterest` (any later
calls are further `AddContext`s, with arbitrary enumeration orders), the
line-of-interest set is contained in the lines-to-show set; and no
expansion pass — padding, ancestor, child, margin, or gap closing — ever
removes a line from lines-to-show. -/
theorem C4_loi_subset_show_and_passes_monotone :
    (∀ (tc₀ : TreeContext) (ops₁ : List Op) (ord : List Int) (ops₂ : List Op),
        (∀ op ∈ ops₂, ∃ o, op = Op.addContext o) →
        (runOps tc₀ (ops₁ ++ Op.addContext ord :: ops₂)).linesOfInterest
          ⊆ (runOps tc₀ (ops₁ ++ Op.addContext ord :: ops₂)).showLines) ∧
    (∀ tc : TreeContext, tc.showLines ⊆ (padPass tc).showLines) ∧
    (∀ (tc : TreeContext) (i : Int), tc.showLines ⊆ (addParentScopes tc i).showLines) ∧
    (∀ (tc : TreeContext) (i : Int), tc.showLines ⊆ (addChildContext tc i).showLines) ∧
    (∀ tc : TreeContext, tc.showLines ⊆ (marginPass tc).showLines) ∧
    (∀ tc : TreeContext, tc.showLines ⊆ (closeSmallGaps tc).showLines) ∧
    (∀ (tc : TreeContext) (ord : List Int), tc.showLines ⊆ (AddContextOrd tc ord).showLines) := by
  refine ⟨?_, fun tc => (expands_padPass tc).2.1,
    fun tc i => (expands_addParentScopes tc i).2.1,
    fun tc i => (expands_addChildContext tc i).2.1,
    fun tc => (expands_marginPass tc).2.1,
    fun tc => (expands_closeSmallGaps tc).2.1,
    fun tc ord => (expands_AddContextOrd tc ord).2.1⟩
  intro tc₀ ops₁ ord ops₂ hall
  have hsplit : runOps tc₀ (ops₁ ++ Op.addContext ord :: ops₂)
      = runOps (runOp (runOps tc₀ ops₁) (Op.addContext ord)) ops₂ := by
    simp [runOps, List.foldl_append]
  rw [hsplit]
  exact runOps_allAddContext ops₂ _ hall (loi_subset_show_after _ ord)

/-- Witness for C4 at a concrete run: mark line 1, then expand. -/
theorem C4_loi_subset_show_witness :
    (∀ op ∈ ([] : List Op), ∃ o, op = Op.addContext o) ∧
    (runOps c4tc ([Op.addLOI {1}] ++ Op.addContext [1] :: [])).linesOfInterest
      ⊆ (runOps c4tc ([Op.addLOI {1}] ++ Op.addContext [1] :: [])).showLines :=
  ⟨fun op h => absurd h (List.not_mem_nil op),
   C4_loi_subset_show_and_passes_monotone.1 c4tc [Op.addLOI {1}] [1] []
     (fun op h => absurd h (List.not_mem_nil op))⟩

/-- C3 (amended): a second `AddContext` with no new lines of interest
never removes lines, and the memoized ancestor expansion itself is
idempotent — but, as the counterexample shows, the full call is not:
padding re-applies around every line already in lines-to-show, the child
preview budget is recomputed, and gap closing re-runs, so the
lines-to-show set can strictly grow on the second call. -/
theorem C3_second_addContext_grows_only :
    (∀ (tc : TreeContext) (i : Int),
        addParentScopes (addParentScopes tc i) i = addParentScopes tc i) ∧
    (∀ (tc : TreeContext) (ord₁ ord₂ : List Int),
        (AddContextOrd tc ord₁).showLines
          ⊆ (AddContextOrd (AddContextOrd tc ord₁) ord₂).showLines) := by
  constructor
  · intro tc i
    by_cases hb : i < 0 ∨ (tc.scopes.length : Int) ≤ i
    · have h1 : addParentScopes tc i = tc := by
        rw [addParentScopes, addParentScopesF, if_pos hb]
      rw [h1, h1]
    · by_cases hd : i ∈ tc.doneParentScopes
      · have h1 : addParentScopes tc i = tc := by
          rw [addParentScopes, addParentScopesF, if_neg hb, if_pos hd]
        rw [h1, h1]
      · have h1 : addParentScopes tc i
            = scopeLoopF (addParentScopesF tc.scopes.length)
                { tc with doneParentScopes := insert i tc.doneParentScopes }
                (sortedKeys (tc.scopes.getD i.toNat ∅)) := by
          rw [addParentScopes, addParentScopesF, if_neg hb, if_neg hd]
        have hexp : Expands { tc with doneParentScopes := insert i tc.doneParentScopes }
            (addParentScopes tc i) := by
          rw [h1]
          exact expands_scopeLoopF _ (expands_addParentScopesF _) _ _
        have hscopes : (addParentScopes tc i).scopes = tc.scopes :=
          congrArg StaticView.scopes hexp.1
        have hdone : i ∈ (addParentScopes tc i).doneParentScopes :=
          hexp.2.2 (Finset.mem_insert_self i _)
        rw [addParentScopes, hscopes, addParentScopesF, hscopes, if_neg hb, if_pos hdone]
  · intro tc ord₁ ord₂
    exact (expands_AddContextOrd (AddContextOrd tc ord₁) ord₂).2.1

/-- C3 counterexample: with padding radius 1 and line of interest 2, the
first `AddContext` yields lines-to-show `\x7b1, 2, 3\x7d`, and a second
`AddContext` with no new lines of interest pads around the previously
added lines 1 and 3, growing the set to `\x7b0, 1, 2, 3, 4\x7d`. -/
theorem C3_counterexample :
    ¬((AddContext (AddContext c3tc)).showLines = (AddContext c3tc).showLines) := by
  decide

/-- C2 (amended): the budgeted child loop checks its budget only before
each expansion: every `addParentScopes` invocation inside
`addChildContext` starts from a state in which at most
`computedMax = clamp(round(size*0.10), 5, 25)` lines have been added since
the call began, but the final invocation may overshoot, so the total
number of added lines is not bounded by `computedMax` (see the
counterexample). -/
theorem C2_budget_checked_before_each_expansion :
    ∀ (tc : TreeContext) (i : Int),
      (addChildContextTrace tc i).1 = addChildContext tc i ∧
      ∀ c ∈ (addChildContextTrace tc i).2,
        (c : Int) ≤ (tc.showLines.card : Int) + computedMaxFor (scopeSpanSize tc i) := by
  have key : ∀ (base : Nat) (cmax : Int) (cs : List Node) (tc : TreeContext),
      (childLoopTrace base cmax tc cs).1 = childLoop base cmax tc cs ∧
      (∀ c ∈ (childLoopTrace base cmax tc cs).2, (c : Int) ≤ (base : Int) + cmax) := by
    intro base cmax cs
    induction cs with
    | nil =>
      intro tc
      rw [childLoopTrace, childLoop]
      exact ⟨rfl, fun c h => absurd h (List.not_mem_nil c)⟩
    | cons c rest ih =>
      intro tc
      rw [childLoopTrace, childLoop]
      by_cases hbr : (base : Int) + cmax < (tc.showLines.card : Int)
      · rw [if_pos hbr, if_pos hbr]
        exact ⟨rfl, fun x h => absurd h (List.not_mem_nil x)⟩
      · rw [if_neg hbr, if_neg hbr]
        refine ⟨(ih _).1, ?_⟩
        intro x hx
        rcases List.mem_cons.mp hx with h | h
        · subst h; exact not_lt.mp hbr
        · exact (ih _).2 x h
  intro tc i
  rw [addChildContextTrace, addChildContext, scopeSpanSize]
  by_cases h1 : i < 0 ∨ (tc.nodes.length : Int) ≤ i
  · rw [if_pos h1, if_pos h1]
    exact ⟨rfl, fun c h => absurd h (List.not_mem_nil c)⟩
  · rw [if_neg h1, if_neg h1]
    by_cases h2 : (tc.nodes.getD i.toNat []).length = 0
    · rw [if_pos h2, if_pos h2]
      exact ⟨rfl, fun c h => absurd h (List.not_mem_nil c)⟩
    · rw [if_neg h2, if_neg h2]
      dsimp only
      by_cases h3 : getLastLineOfScope tc i - i < 0
      · rw [if_pos h3, if_pos h3]
        exact ⟨rfl, fun c h => absurd h (List.not_mem_nil c)⟩
      · rw [if_neg h3, if_neg h3]
        by_cases h4 : getLastLineOfScope tc i - i < 5
        · rw [if_pos h4, if_pos h4]
          exact ⟨rfl, fun c h => absurd h (List.not_mem_nil c)⟩
        · rw [if_neg h4, if_neg h4]
          exact key _ _ _ tc

/-- Witness for C2 at a concrete input: the first recorded invocation of
the budgeted loop of `addChildContext c2tc 0` starts with 0 added lines,
within the budget. -/
theorem C2_budget_witness :
    (0 : Nat) ∈ (addChildContextTrace c2tc 0).2 ∧
    ((0 : Nat) : Int) ≤ (c2tc.showLines.card : Int) + computedMaxFor (scopeSpanSize c2tc 0) :=
  ⟨by decide, (C2_budget_checked_before_each_expansion c2tc 0).2 0 (by decide)⟩

/-- C2 counterexample: line 0 of `c2tc` owns a scope of span 10 (≥ 5), the
clamped budget is 5, yet the single call `addChildContext c2tc 0` adds 9
lines to the empty lines-to-show set — the claimed bound
`clamp(round(S*0.10), 5, 25)` does not cap the lines added by one call. -/
theorem C2_counterexample :
    5 ≤ scopeSpanSize c2tc 0 ∧
    ¬(((addChildContext c2tc 0).showLines.card : Int) - (c2tc.showLines.card : Int)
        ≤ computedMaxFor (scopeSpanSize c2tc 0)) := by
  decide

/-- C5 (amended): a pattern the regex engine cannot compile makes `Grep`
abort — Go's `regexp.MustCompile` panics — before any state is touched:
the outcome is a panic carrying the input context unchanged, so there is
no partial result set and the line store, line-of-interest set,
lines-to-show set and highlight map are exactly as before the call; but
the failure is a panic that propagates up the call chain (the Go function
has no error return), not an error fatal to the match call only. -/
theorem C5_invalid_pattern_panics_without_mutation :
    ∀ (compile : String → Option Regex) (tc : TreeContext) (pat : String) (ic : Bool),
      compile (if ic then "(?i)" ++ pat else pat) = none →
      Grep compile tc pat ic = .panicked tc := by
  intro compile tc pat ic h
  rw [Grep]
  exact h ▸ rfl

/-- Witness for C5: the always-failing compiler (standing for Go's regexp
on the invalid pattern `"("`) makes the concrete call panic with the state
unchanged. -/
theorem C5_invalid_pattern_witness :
    ((fun _ => none : String → Option Regex) (if false then "(?i)" ++ "(" else "(") = none) ∧
    Grep (fun _ => none) c5tc "(" false = .panicked c5tc :=
  ⟨rfl, C5_invalid_pattern_panics_without_mutation (fun _ => none) c5tc "(" false rfl⟩

/-- C5 counterexample: the concrete failing call does not run to
completion — it aborts in the panic of `regexp.MustCompile`, which unwinds
the caller as well (no `recover` exists in the code), contradicting the
claim that the failure is fatal to that call only and does not abort the
containing context. -/
theorem C5_counterexample :
    (Grep (fun _ => none) c5tc "(" false).isCompleted = false := rfl

/-- C6: line 1 of `c6tc` owns no syntax node, yet its finalized header
interval is `[0, 1)` — not the documented trivial interval `[1, 2)`.
`NewTreeContext` seeds every header slot with the length-2 list `[0, 0]`,
so the `len < 2` default branch of `postWalkProcessing`, which would
produce `[i, i+1]` (as the last conjunct shows), is unreachable: the code
contradicts its own default, and non-owner lines all get `[0, 1)`. -/
theorem C6_nonowner_header_defaults_to_zero_one :
    (c6tc.nodes.getD 1 []).length = 0 ∧
    c6tc.header.getD 1 [] = [0, 1] ∧
    ¬(c6tc.header.getD 1 [] = [1, 2]) ∧
    finalizeHeader c6tc.headerMax 1 [] = [1, 2] := by
  decide

theorem parentPass_of_false (t : TreeContext) (ord : List Int)
    (h : t.parentContext = false) : parentPass t ord = t := by
  rw [parentPass, if_neg]
  rw [h]
  simp

theorem childPass_of_false (t : TreeContext) (ord : List Int)
    (h : t.childContext = false) : childPass t ord = t := by
  rw [childPass, if_neg]
  rw [h]
  simp

theorem addContextPasses_ord_irrel (tc : TreeContext) (ord₁ ord₂ : List Int)
    (hp : tc.parentContext = false) (hc : tc.childContext = false) :
    addContextPasses tc ord₁ = addContextPasses tc ord₂ := by
  have hstat : (lastLinePass (padPass tc)).staticView = tc.staticView :=
    ((expands_lastLinePass (padPass tc)).1).trans (expands_padPass tc).1
  have hXp : (lastLinePass (padPass tc)).parentContext = false :=
    (congrArg StaticView.parentContext hstat).trans hp
  have hXc : (lastLinePass (padPass tc)).childContext = false :=
    (congrArg StaticView.childContext hstat).trans hc
  rw [addContextPasses, addContextPasses,
    parentPass_of_false _ ord₁ hXp, parentPass_of_false _ ord₂ hXp,
    childPass_of_false _ ord₁ hXc, childPass_of_false _ ord₂ hXc]

/-- C7 (amended): with the enumeration order of the line-of-interest set
fixed, context expansion and the subsequent rendering are functions of the
context state — equal states give equal lines-to-show sets and equal
output; and when the two order-sensitive passes are disabled
(`parentContext` and `childContext` off), the result does not depend on
the enumeration order at all, so the operation is genuinely
deterministic.  But with child context enabled the result depends on that
order (see the counterexample), and Go map iteration order is
unspecified, so two runs from equal states are not guaranteed to agree. -/
theorem C7_deterministic_for_fixed_order :
    (∀ (tc₁ tc₂ : TreeContext) (ord : List Int), tc₁ = tc₂ →
      (AddContextOrd tc₁ ord).showLines = (AddContextOrd tc₂ ord).showLines ∧
      Format (AddContextOrd tc₁ ord) = Format (AddContextOrd tc₂ ord)) ∧
    (∀ (tc : TreeContext) (ord₁ ord₂ : List Int),
      tc.parentContext = false → tc.childContext = false →
      AddContextOrd tc ord₁ = AddContextOrd tc ord₂) := by
  constructor
  · intro tc₁ tc₂ ord h
    subst h
    exact ⟨rfl, rfl⟩
  · intro tc ord₁ ord₂ hp hc
    rw [AddContextOrd, AddContextOrd]
    split
    · rfl
    · exact addContextPasses_ord_irrel _ ord₁ ord₂ hp hc

/-- Witness for C7 at a concrete state and order: the fixed-order
determinism applied to `c7tc`, and the order-independence of a context
with both order-sensitive passes disabled. -/
theorem C7_deterministic_witness :
    ((AddContextOrd c7tc [2, 10]).showLines = (AddContextOrd c7tc [2, 10]).showLines ∧
      Format (AddContextOrd c7tc [2, 10]) = Format (AddContextOrd c7tc [2, 10])) ∧
    AddContextOrd c3tc [2, 99] = AddContextOrd c3tc [99, 2] :=
  ⟨C7_deterministic_for_fixed_order.1 c7tc c7tc [2, 10] rfl,
   C7_deterministic_for_fixed_order.2 c3tc [2, 99] [99, 2] (by decide) (by decide)⟩

set_option maxRecDepth 8000 in
/-- C7 counterexample: `[2, 10]` and `[10, 2]` enumerate the same
line-of-interest set of the same state `c7tc` — two runs differing only in
the (unspecified) map iteration order — yet they produce different
lines-to-show sets and different rendered output: the memoized ancestor
expansions performed inside the budgeted child loop interact with the
budget cut-off differently in the two orders. -/
theorem C7_counterexample :
    ([2, 10] : List Int).toFinset = c7tc.linesOfInterest ∧
    ([10, 2] : List Int).toFinset = c7tc.linesOfInterest ∧
    ¬((AddContextOrd c7tc [2, 10]).showLines = (AddContextOrd c7tc [10, 2]).showLines) ∧
    ¬(Format (AddContextOrd c7tc [2, 10]) = Format (AddContextOrd c7tc [10, 2])) := by
  decide

theorem walkVisit_header (tc : TreeContext) (n : Node) :
    (walkVisit tc n).header = writeHeader tc.header n := by
  rw [walkVisit, writeHeader]
  split <;> rfl

theorem walkVisit_nodes_length (tc : TreeContext) (n : Node) :
    (walkVisit tc n).nodes.length = tc.nodes.length := by
  rw [walkVisit]
  split <;> simp

theorem writeHeader_length (h : List (List Int)) (n : Node) :
    (writeHeader h n).length = h.length := by
  rw [writeHeader]
  split <;> simp

mutual

theorem walkTree_lengths (tc : TreeContext) (n : Node) :
    (walkTree tc n).nodes.length = tc.nodes.length ∧
    (walkTree tc n).header.length = tc.header.length :=
  match n with
  | .mk s e cs => by
    rw [walkTree]
    split
    · exact ⟨rfl, rfl⟩
    · have h := walkChildren_lengths (walkVisit tc (.mk s e cs)) cs
      refine ⟨h.1.trans (walkVisit_nodes_length tc _), h.2.trans ?_⟩
      rw [walkVisit_header, writeHeader_length]
termination_by structural n

theorem walkChildren_lengths (tc : TreeContext) (ns : List Node) :
    (walkChildren tc ns).nodes.length = tc.nodes.length ∧
    (walkChildren tc ns).header.length = tc.header.length :=
  match ns with
  | [] => by rw [walkChildren]; exact ⟨rfl, rfl⟩
  | n :: rest => by
    rw [walkChildren]
    have h1 := walkTree_lengths tc n
    have h2 := walkChildren_lengths (walkTree tc n) rest
    exact ⟨h2.1.trans h1.1, h2.2.trans h1.2⟩
termination_by structural ns

end

mutual

theorem walkTree_header_char (tc : TreeContext) (n : Node) :
    (walkTree tc n).header
      = (visitedNodes tc.nodes.length n).foldl writeHeader tc.header :=
  match n with
  | .mk s e cs => by
    rw [walkTree, visitedNodes]
    split
    · rfl
    · rw [walkChildren_header_char (walkVisit tc (.mk s e cs)) cs,
        walkVisit_nodes_length, walkVisit_header, List.foldl_cons]
termination_by structural n

theorem walkChildren_header_char (tc : TreeContext) (ns : List Node) :
    (walkChildren tc ns).header
      = (visitedNodesList tc.nodes.length ns).foldl writeHeader tc.header :=
  match ns with
  | [] => by rw [walkChildren, visitedNodesList]; rfl
  | n :: rest => by
    rw [walkChildren, visitedNodesList, List.foldl_append,
      walkChildren_header_char (walkTree tc n) rest, (walkTree_lengths tc n).1,
      walkTree_header_char tc n]
termination_by structural ns

end

theorem foldl_lastPosStep_init (i : Nat) :
    ∀ (ns : List Node) (o : Option Node),
      ns.foldl (lastPosStep i) o
        = match ns.foldl (lastPosStep i) none with
          | some m => some m
          | none => o := by
  intro ns
  induction ns with
  | nil => intro o; rfl
  | cons n rest ih =>
    intro o
    rw [List.foldl_cons, List.foldl_cons, ih (lastPosStep i none n)]
    rw [ih (lastPosStep i o n)]
    rcases h : rest.foldl (lastPosStep i) none with _ | m
    · dsimp only
      rw [lastPosStep, lastPosStep]
      split <;> rfl
    · rfl

theorem foldl_writeHeader_getD (i : Nat) :
    ∀ (ns : List Node) (h : List (List Int)), i < h.length →
      (ns.foldl writeHeader h).getD i []
        = match lastPositiveAt i ns with
          | some m => [nodeSize m, (m.startLine : Int), (m.endLine : Int)]
          | none => h.getD i [] := by
  intro ns
  induction ns with
  | nil => intro h hlen; rfl
  | cons n rest ih =>
    intro h hlen
    rw [List.foldl_cons, ih (writeHeader h n) (by rw [writeHeader_length]; exact hlen)]
    have hinit : lastPositiveAt i (n :: rest)
        = match lastPositiveAt i rest with
          | some m => some m
          | none => lastPosStep i none n := by
      rw [lastPositiveAt, List.foldl_cons, foldl_lastPosStep_init i rest (lastPosStep i none n)]
      rfl
    rw [hinit]
    rcases hrest : lastPositiveAt i rest with _ | m
    · dsimp only
      rw [lastPosStep]
      by_cases hp : n.startLine = i ∧ 0 < nodeSize n
      · rw [if_pos hp]
        obtain ⟨hs, hpos⟩ := hp
        subst hs
        rw [writeHeader, if_pos ⟨hpos, hlen⟩]
        simp [List.getD_eq_getElem?_getD, List.getElem?_set_self, hlen]
      · rw [if_neg hp]
        rw [writeHeader]
        split
        · rename_i hc
          have hne : n.startLine ≠ i := by
            intro he
            exact hp ⟨he, hc.1⟩
          simp [List.getD_eq_getElem?_getD, List.getElem?_set_ne hne]
        · rfl
    · rfl

/-- C1 (amended): the header candidate recorded for line `i` by the
indexing traversal is the one from the last node with positive line span
starting at `i` in the (bounds-pruned) pre-order visit sequence — every
visit with `size > 0` overwrites the slot unconditionally — and `[0, 0]`
(the initial value) remains when no such node exists.  Because pre-order
visits a node before its descendants and a descendant starting on the same
line can only have a smaller or equal span, the surviving candidate is a
deepest node starting at `i`, not in general the one with the largest
span (see the counterexample). -/
theorem C1_header_candidate_is_last_preorder_write :
    ∀ (filename source : String) (opts : TreeContextOptions) (root : Node) (i : Nat),
      i < (initialTreeContext filename source opts).header.length →
      (walkTree (initialTreeContext filename source opts) root).header.getD i []
        = match lastPositiveAt i
              (visitedNodes (initialTreeContext filename source opts).nodes.length root) with
          | some m => [nodeSize m, (m.startLine : Int), (m.endLine : Int)]
          | none => [0, 0] := by
  intro filename source opts root i hlen
  rw [walkTree_header_char, foldl_writeHeader_getD i _ _ hlen]
  rcases lastPositiveAt i
      (visitedNodes (initialTreeContext filename source opts).nodes.length root) with _ | m
  · dsimp only
    have hlen' : i < (splitLines source).length + 1 := by
      simpa [initialTreeContext] using hlen
    rw [initialTreeContext]
    simp [List.getElem?_replicate, hlen']
  · rfl

/-- Witness for C1 at the concrete context: for line 0 of `c1tc` the
characterization applies and yields the last positive write. -/
theorem C1_header_candidate_witness :
    0 < (initialTreeContext "f.go" srcEleven oBase).header.length ∧
    (walkTree (initialTreeContext "f.go" srcEleven oBase) (.mk 0 10 [.mk 0 5 []])).header.getD 0 []
      = match lastPositiveAt 0
            (visitedNodes (initialTreeContext "f.go" srcEleven oBase).nodes.length
              (.mk 0 10 [.mk 0 5 []])) with
        | some m => [nodeSize m, (m.startLine : Int), (m.endLine : Int)]
        | none => [0, 0] :=
  ⟨by decide,
   C1_header_candidate_is_last_preorder_write "f.go" srcEleven oBase
     (.mk 0 10 [.mk 0 5 []]) 0 (by decide)⟩

/-- C1 counterexample: in `c1tc` the nodes starting at line 0 span 10 and
5; the largest-span node would give the candidate `[10, 0, 10]`, but the
recorded candidate is `[5, 0, 5]` — the later, smaller pre-order write
replaced the larger one, refuting the only-the-largest-span-wins rule. -/
theorem C1_counterexample :
    c1tc.header.getD 0 [] = [5, 0, 5] ∧
    ¬(c1tc.header.getD 0 [] = [10, 0, 10]) := by
  decide

theorem mem_blankStep {tc : TreeContext} {acc : Finset Int} {i : Nat} {x : Int}
    (hx : x ∈ blankStep tc acc i) : x ∈ acc ∨ x = (i : Int) + 1 := by
  rw [blankStep] at hx
  split at hx
  · split at hx
    · split at hx
      · rcases Finset.mem_insert.mp hx with h | h
        · right; exact h
        · left; exact h
      · left; exact hx
    · left; exact hx
  · left; exact hx

theorem blankStep_adds {tc : TreeContext} {acc : Finset Int} {i : Nat}
    (h0 : (i : Int) ∈ acc)
    (h1 : ¬isBlank (tc.lines.getD i "") ∧ (i : Int) < (tc.numLines : Int) - 2)
    (h2 : i + 1 < tc.lines.length ∧ isBlank (tc.lines.getD (i + 1) "")) :
    ((i : Int) + 1) ∈ blankStep tc acc i := by
  rw [blankStep, if_pos h0, if_pos h1, if_pos h2]
  exact Finset.mem_insert_self _ _

theorem blankFold_closes (tc : TreeContext) (s : Finset Int) :
    ∀ (n i : Nat), i < n →
      ¬isBlank (tc.lines.getD i "") → (i : Int) < (tc.numLines : Int) - 2 →
      i + 1 < tc.lines.length → isBlank (tc.lines.getD (i + 1) "") →
      (i : Int) ∈ (List.range n).foldl (blankStep tc) s →
      ((i : Int) + 1) ∈ (List.range n).foldl (blankStep tc) s := by
  intro n
  induction n with
  | zero => intro i h; exact absurd h (Nat.not_lt_zero i)
  | succ n ih =>
    intro i hin hb1 hb2 hb3 hb4 hmem
    rw [List.range_succ, List.foldl_append, List.foldl_cons, List.foldl_nil] at hmem ⊢
    by_cases hi : i = n
    · subst hi
      have hacc : (i : Int) ∈ (List.range i).foldl (blankStep tc) s := by
        rcases mem_blankStep hmem with h | h
        · exact h
        · exfalso; omega
      exact blankStep_adds hacc ⟨hb1, hb2⟩ ⟨hb3, hb4⟩
    · have hlt : i < n := by omega
      have hacc : (i : Int) ∈ (List.range n).foldl (blankStep tc) s := by
        rcases mem_blankStep hmem with h | h
        · exact h
        · exfalso; omega
      exact subset_blankStep tc _ n (ih i hlt hb1 hb2 hb3 hb4 hacc)

/-- C8 (amended): after the gap-closing pass, for every line `i` of the
result whose own text is not blank, whose immediately following source
line exists and is blank, and with `i < numLines - 2`, the following
blank line is in the result too.  The requirement that line `i` itself be
non-blank is the condition the original claim omits: the code skips shown
lines that are themselves blank (see the counterexample). -/
theorem C8_blank_follower_attached :
    ∀ (tc : TreeContext) (i : Nat),
      (i : Int) ∈ (closeSmallGaps tc).showLines →
      ¬isBlank (tc.lines.getD i "") →
      (i : Int) < (tc.numLines : Int) - 2 →
      i + 1 < tc.lines.length →
      isBlank (tc.lines.getD (i + 1) "") →
      ((i : Int) + 1) ∈ (closeSmallGaps tc).showLines := by
  intro tc i hmem hb1 hb2 hb3 hb4
  rw [closeSmallGaps] at hmem ⊢
  exact blankFold_closes tc _ tc.lines.length i (by omega) hb1 hb2 hb3 hb4 hmem

/-- Concrete context for the blank-line witness: line 0 (`"a"`) is shown
and non-blank, line 1 is blank. -/
def c8wtc : TreeContext :=
  { NewTreeContext "f.go" "a\n\nb\nc\nd" oBase (.mk 0 0 []) with
      showLines := ({0} : Finset Int) }

/-- Witness for C8: the gap-closing pass of `c8wtc` attaches blank line 1
to the shown non-blank line 0. -/
theorem C8_blank_follower_witness :
    ((0 : Int) ∈ (closeSmallGaps c8wtc).showLines ∧
      ¬isBlank (c8wtc.lines.getD 0 "") ∧
      (0 : Int) < (c8wtc.numLines : Int) - 2 ∧
      0 + 1 < c8wtc.lines.length ∧
      isBlank (c8wtc.lines.getD (0 + 1) "")) ∧
    ((0 : Int) + 1) ∈ (closeSmallGaps c8wtc).showLines :=
  ⟨⟨by decide, by decide, by decide, by decide, by decide⟩,
   C8_blank_follower_attached c8wtc 0 (by decide) (by decide) (by decide) (by decide) (by decide)⟩

/-- C8 counterexample: in `c8tc` the shown line 1 is itself blank and is
followed by the blank line 2, far from end-of-file — the claim as stated
demands line 2 be revealed, but the code's extra non-blank condition on
line 1 leaves it hidden. -/
theorem C8_counterexample :
    (1 : Int) ∈ c8tc.showLines ∧
    isBlank (c8tc.lines.getD 2 "") ∧
    (1 : Int) < (c8tc.numLines : Int) - 2 ∧
    2 < c8tc.lines.length ∧
    ¬((2 : Int) ∈ c8tc.showLines) := by
  decide

theorem eventsLoop_count_eq (s : Finset Int) :
    ∀ (n a : Nat) (pe : Bool),
      ((eventsLoop s (List.range' a n) pe).count FmtEvent.ellipsis)
        = ((List.range' a n).filter (fun (i : Nat) =>
            decide ((i : Int) ∉ s) &&
              (if i = a then pe else decide (((i : Int) - 1) ∈ s)))).length := by
  intro n
  induction n with
  | zero => intro a pe; rfl
  | succ n ih =>
    intro a pe
    rw [List.range'_succ, eventsLoop, List.filter_cons]
    have htail : ∀ pe' : Bool, pe' = decide ((a : Int) ∈ s) →
        ((eventsLoop s (List.range' (a + 1) n) pe').count FmtEvent.ellipsis)
          = ((List.range' (a + 1) n).filter (fun (i : Nat) =>
              decide ((i : Int) ∉ s) &&
                (if i = a then pe else decide (((i : Int) - 1) ∈ s)))).length := by
      intro pe' hpe'
      rw [ih (a + 1) pe']
      congr 1
      refine List.filter_congr ?_
      intro i hi
      have hge : a + 1 ≤ i := (List.mem_range'_1.mp hi).1
      have hne : ¬(i = a) := by omega
      rw [if_neg hne]
      by_cases hia : i = a + 1
      · subst hia
        have : ((a : Int) + 1 - 1) = (a : Int) := by omega
        rw [if_pos rfl, hpe', Nat.cast_add, Nat.cast_one, this]
      · rw [if_neg hia]
    by_cases hs : (a : Int) ∈ s
    · rw [if_pos hs]
      have hhead : (decide ((a : Int) ∉ s) &&
          (if a = a then pe else decide (((a : Int) - 1) ∈ s))) = false := by
        simp [hs]
      rw [hhead]
      simp only [Bool.false_eq_true, if_false, List.count_cons,
        show (FmtEvent.line a == FmtEvent.ellipsis) = false from rfl, Nat.add_zero]
      exact htail true (by simp [hs])
    · rw [if_neg hs]
      have hhead : (decide ((a : Int) ∉ s) &&
          (if a = a then pe else decide (((a : Int) - 1) ∈ s))) = pe := by
        simp [hs]
      rw [hhead]
      cases pe with
      | true =>
        simp only [if_true, List.count_cons,
          show (FmtEvent.ellipsis == FmtEvent.ellipsis) = true from rfl, List.length_cons]
        rw [htail false (by simp [hs])]
      | false =>
        simp only [Bool.false_eq_true, if_false]
        exact htail false (by simp [hs])

/-- C9: in the rendered event stream every maximal run of consecutive
hidden lines produces exactly one ellipsis marker — the marker count
equals the number of indices at which a hidden run starts — and on the
concrete 7-line file with lines-to-show `\x7b0, 1, 5, 6\x7d` the events are
exactly line 0, line 1, one ellipsis, line 5, line 6, rendering with a
single marker between line 1's output and line 5's output. -/
theorem C9_one_marker_per_hidden_run :
    (∀ tc : TreeContext,
        ((formatEvents tc).count FmtEvent.ellipsis)
          = (hiddenRunStarts tc.showLines tc.lines.length).length) ∧
    formatEvents c9tc
      = [FmtEvent.line 0, FmtEvent.line 1, FmtEvent.ellipsis,
         FmtEvent.line 5, FmtEvent.line 6] ∧
    Format c9tc = "│l0\n│l1\n⋮...\n│l5\n│l6\n" := by
  refine ⟨?_, by decide, by decide⟩
  intro tc
  rw [formatEvents, hiddenRunStarts, List.range_eq_range']
  rw [eventsLoop_count_eq tc.showLines tc.lines.length 0 _]
  congr 1
  refine List.filter_congr ?_
  intro i _
  by_cases h0 : i = 0
  · subst h0
    by_cases hs : (0 : Int) ∈ tc.showLines <;> simp [hs]
  · have hb : (i == 0) = false := by simp [h0]
    rw [hb]
    simp [h0]

theorem eventsLoop_congr (s s' : Finset Int) :
    ∀ (l : List Nat) (pe : Bool),
      (∀ i ∈ l, ((i : Int) ∈ s ↔ (i : Int) ∈ s')) →
      eventsLoop s l pe = eventsLoop s' l pe := by
  intro l
  induction l with
  | nil => intro pe _; rfl
  | cons i rest ih =>
    intro pe hiff
    rw [eventsLoop, eventsLoop]
    have hrest := fun j hj => hiff j (List.mem_cons_of_mem i hj)
    by_cases hi : (i : Int) ∈ s
    · rw [if_pos hi, if_pos ((hiff i (List.mem_cons_self i rest)).mp hi), ih true hrest]
    · rw [if_neg hi, if_neg (fun h => hi ((hiff i (List.mem_cons_self i rest)).mpr h))]
      cases pe with
      | true => rw [if_pos rfl, if_pos rfl, ih false hrest]
      | false => rw [if_neg (by simp), if_neg (by simp), ih false hrest]

theorem mem_lineIndexSet (tc : TreeContext) (i : Nat) (h : i < tc.lines.length) :
    (i : Int) ∈ lineIndexSet tc := by
  rw [lineIndexSet, List.mem_toFinset]
  exact List.mem_map.mpr ⟨i, List.mem_range.mpr h, rfl⟩

theorem renderEvent_show_irrel (tc : TreeContext) (s : Finset Int) :
    renderEvent { tc with showLines := s } = renderEvent tc := by
  funext ev
  cases ev <;> rfl

/-- C10: out-of-range line indices are harmless everywhere the claim
names them: ancestor expansion returns the state unchanged when the index
is negative or at least the length of the scopes slice; descendant
expansion likewise for the nodes slice; and rendering consults only the
actual source line indices — restricting lines-to-show to the valid index
range leaves `Format`'s output unchanged whenever some valid line is
shown, so out-of-range members (for example negative lines of interest)
never appear in the output. -/
theorem C10_out_of_range_indices_safe :
    (∀ (tc : TreeContext) (i : Int), i < 0 ∨ (tc.scopes.length : Int) ≤ i →
        addParentScopes tc i = tc) ∧
    (∀ (tc : TreeContext) (i : Int), i < 0 ∨ (tc.nodes.length : Int) ≤ i →
        addChildContext tc i = tc) ∧
    (∀ tc : TreeContext, (tc.showLines ∩ lineIndexSet tc).Nonempty →
        Format tc = Format { tc with showLines := tc.showLines ∩ lineIndexSet tc }) := by
  refine ⟨?_, ?_, ?_⟩
  · intro tc i h
    rw [addParentScopes, addParentScopesF, if_pos h]
  · intro tc i h
    rw [addChildContext, if_pos h]
  · intro tc hne
    obtain ⟨x, hx⟩ := hne
    have hxshow : x ∈ tc.showLines := (Finset.mem_inter.mp hx).1
    have hne1 : ¬(tc.showLines = ∅) := by
      intro h
      rw [h] at hxshow
      exact absurd hxshow (Finset.not_mem_empty x)
    have hne2 : ¬(tc.showLines ∩ lineIndexSet tc = ∅) := by
      intro h
      rw [h] at hx
      exact absurd hx (Finset.not_mem_empty x)
    have hlen0 : 0 < tc.lines.length := by
      rcases Nat.eq_zero_or_pos tc.lines.length with hz | hp
      · exfalso
        have hempty : lineIndexSet tc = ∅ := by
          rw [lineIndexSet, hz]
          rfl
        have hidx := (Finset.mem_inter.mp hx).2
        rw [hempty] at hidx
        exact absurd hidx (Finset.not_mem_empty x)
      · exact hp
    have hev : formatEvents { tc with showLines := tc.showLines ∩ lineIndexSet tc }
        = formatEvents tc := by
      rw [formatEvents, formatEvents]
      have hmem : ∀ i ∈ List.range tc.lines.length,
          ((i : Int) ∈ tc.showLines ∩ lineIndexSet tc ↔ (i : Int) ∈ tc.showLines) := by
        intro i hi
        rw [Finset.mem_inter]
        exact ⟨fun h => h.1, fun h => ⟨h, mem_lineIndexSet tc i (List.mem_range.mp hi)⟩⟩
      have h0 : ((0 : Int) ∈ tc.showLines ∩ lineIndexSet tc ↔ (0 : Int) ∈ tc.showLines) := by
        have := hmem 0 (List.mem_range.mpr hlen0)
        simpa using this
      have hpe : (if (0 : Int) ∈ tc.showLines ∩ lineIndexSet tc then false else true)
          = (if (0 : Int) ∈ tc.showLines then false else true) := by
        by_cases h : (0 : Int) ∈ tc.showLines
        · rw [if_pos h, if_pos (h0.mpr h)]
        · rw [if_neg h, if_neg (fun hh => h (h0.mp hh))]
      rw [hpe]
      exact eventsLoop_congr _ _ _ _ hmem
    rw [Format, Format, if_neg hne1, if_neg hne2, hev,
      renderEvent_show_irrel tc (tc.showLines ∩ lineIndexSet tc)]

/-- Witness for C10: a negative ancestor index and an over-large
descendant index are skipped on the concrete context, and `Format` ignores
the out-of-range member `-5` of lines-to-show. -/
theorem C10_out_of_range_witness :
    addParentScopes c10tc (-3) = c10tc ∧
    addChildContext c10tc 99 = c10tc ∧
    Format c10tc = Format { c10tc with showLines := c10tc.showLines ∩ lineIndexSet c10tc } :=
  ⟨C10_out_of_range_indices_safe.1 c10tc (-3) (by decide),
   C10_out_of_range_indices_safe.2.1 c10tc 99 (by decide),
   C10_out_of_range_indices_safe.2.2 c10tc (by decide)⟩

end GrepAst
